import Mathlib

/-!
Shallow embedding of `src/minBlepy/minblep.py` (class `MinBleps`): scale
resolution, kernel sizing, step-table padding, polyphase demultiplexing,
index-map construction and the runtime index queries.

Modelling conventions:
* numpy integer arrays are modelled as total functions on `Nat`; each
  definition's doc comment records the index range the real array has.
* cells of an `np.empty` array that the construction loop never writes are
  modelled as `Option` `none` (for `outx2minnaivex`) or as a default the
  theorems never read (for `demultiplexed`).
* Python `//` and `%` on possibly negative integers floor toward `-∞`, so
  they are modelled with `Int.fdiv` and explicit subtraction, exactly as the
  source writes them.
* the floating-point sample values produced by the FFT pipeline are not
  modelled; the step table is parametrised by an arbitrary rational list
  `minbli` (the minimum-phase impulse response), and the padding /
  demultiplexing structure is proved for every such list.
* `np.int32` conversion truncates toward zero; the int32 width itself is not
  modelled, since every claim concerns values far below `2^31`.
-/

set_option autoImplicit false

namespace MinBleps

/-- Source: `idealscale = naiverate // gcd(naiverate, outrate)` inside
`MinBleps.resolvescale`. -/
def idealscale (naiverate outrate : Nat) : Nat :=
  naiverate / Nat.gcd naiverate outrate

/-- Source: `MinBleps.resolvescale`.  The raised `Exception("Expected scale %s
but ideal is %s.")` is modelled as `Except.error (requested, ideal)`, carrying
exactly the two values the message reports. -/
def resolvescale (naiverate outrate : Nat) (scaleornone : Option Nat) :
    Except (Nat × Nat) Nat :=
  match scaleornone with
  | none => Except.ok (idealscale naiverate outrate)
  | some scale =>
      if scale ≠ idealscale naiverate outrate then
        Except.error (scale, idealscale naiverate outrate)
      else
        Except.ok (idealscale naiverate outrate)

/-- Source: `dualscale = outrate // gcd(naiverate, outrate)` in `__init__`. -/
def dualscale (naiverate outrate : Nat) : Nat :=
  outrate / Nat.gcd naiverate outrate

/-- Source: `self.naivex2outx = nearest // scale` where
`nearest = np.arange(naiverate, dtype=np.int32) * dualscale`; the real array
has `naiverate` entries, so entry `n` is meaningful for `n < naiverate`. -/
def naivex2outx (naiverate outrate scale n : Nat) : Nat :=
  n * dualscale naiverate outrate / scale

/-- Source: `self.naivex2shape = self.naivex2outx * scale - nearest + scale - 1`. -/
def naivex2shape (naiverate outrate scale : Nat) (n : Nat) : Int :=
  (naivex2outx naiverate outrate scale n : Int) * scale
    - n * dualscale naiverate outrate + scale - 1

/-- Store-update loop underlying `outx2minnaivex`: one list element per
iteration of `self.outx2minnaivex[self.naivex2outx[naivex]] = naivex`, the
store being a function model of the array. -/
def outx2minnaivexLoop (f : Nat → Nat) :
    List Nat → (Nat → Option Nat) → Nat → Option Nat
  | [], a => a
  | n :: rest, a =>
      outx2minnaivexLoop f rest fun p => if p = f n then some n else a p

/-- Source: `self.outx2minnaivex = np.empty(outrate, ...)` followed by
`for naivex in range(naiverate)[::-1]:
self.outx2minnaivex[self.naivex2outx[naivex]] = naivex`.  The real array has
`outrate` cells; `none` models a cell the loop never wrote. -/
def outx2minnaivex (naiverate outrate scale : Nat) (o : Nat) : Option Nat :=
  outx2minnaivexLoop (naivex2outx naiverate outrate scale)
    (List.range naiverate).reverse (fun _ => none) o

/-- Source: `MinBleps.getoutcount`.  `naivex + naiven` is nonnegative, so the
Python floor division by `naiverate` is Nat division. -/
def getoutcount (naiverate outrate scale : Nat) (naivex naiven : Nat) : Int :=
  let out0 : Int := naivex2outx naiverate outrate scale naivex
  let naivexa := naivex + naiven
  let shift := naivexa / naiverate
  let out1 : Int := out0 - outrate * shift
  let naivexb := naivexa - naiverate * shift
  (naivex2outx naiverate outrate scale naivexb : Int) - out1

/-- Source: `MinBleps.getminnaiven`; the intermediate `outx` may be any
integer, so Python `//` is `Int.fdiv`.  Returns `none` when the lookup would
read an uninitialised `outx2minnaivex` cell. -/
def getminnaiven (naiverate outrate scale : Nat) (naivex : Nat)
    (outcount : Int) : Option Int :=
  let outx : Int := (naivex2outx naiverate outrate scale naivex : Int) + outcount
  let shift := Int.fdiv outx outrate
  let outxa := outx - outrate * shift
  let naivexa : Int := (naivex : Int) - naiverate * shift
  match outx2minnaivex naiverate outrate scale outxa.toNat with
  | some m => some ((m : Int) - naivexa)
  | none => none

/-- Source: `MinBleps.round`, i.e. `np.int32(v + .5)`: the conversion to a
machine integer truncates toward zero. -/
def round (v : ℚ) : Int :=
  if 0 ≤ v + 1/2 then Int.floor (v + 1/2) else Int.ceil (v + 1/2)

/-- Source: `order = int(self.round(4 / transition / 2)) * 2`. -/
def order (transition : ℚ) : Int :=
  round (4 / transition / 2) * 2

/-- Source: `kernelsize = order * scale + 1`. -/
def kernelsize (transition : ℚ) (scale : Nat) : Int :=
  order transition * scale + 1

/-- Source: `while size < kernelsize: size <<= 1`.  The loop is only entered
with `size = 1` and doubling keeps the count positive, so the added `0 < size`
guard never changes the behaviour of the actual call; it makes termination
manifest. -/
def sizeLoop (kernelsize : Int) (size : Nat) : Nat :=
  if h : 0 < size ∧ (size : Int) < kernelsize then
    sizeLoop kernelsize (size * 2)
  else
    size
termination_by (kernelsize - size).toNat
decreasing_by
  push_cast
  omega

/-- Source: `size = 2 ** 0` followed by the doubling loop. -/
def size (transition : ℚ) (scale : Nat) : Nat :=
  sizeLoop (kernelsize transition scale) 1

/-- Source: `np.cumsum` running-sum helper, with accumulator `acc`. -/
def cumsumFrom (acc : ℚ) : List ℚ → List ℚ
  | [] => []
  | x :: xs => (acc + x) :: cumsumFrom (acc + x) xs

/-- Source: `self.minblep = np.cumsum(self.minbli, ...)`. -/
def cumsum (l : List ℚ) : List ℚ :=
  cumsumFrom 0 l

/-- Source: the two padding steps applied to the cumulative sum:
`np.append(np.zeros(scale - 1), minblep)` and then
`np.append(minblep, np.ones((-len(minblep)) % scale))`; for a nonnegative
length Python's `(-n) % scale` equals `(scale - n % scale) % scale`. -/
def minblep (scale : Nat) (minbli : List ℚ) : List ℚ :=
  let mb := List.replicate (scale - 1) 0 ++ cumsum minbli
  mb ++ List.replicate ((scale - mb.length % scale) % scale) 1

/-- Source: `self.mixinsize = len(self.minblep) // scale`. -/
def mixinsize (scale : Nat) (minbli : List ℚ) : Nat :=
  (minblep scale minbli).length / scale

/-- Slice assignment
`demultiplexed[i * mixinsize:(i + 1) * mixinsize] = minblep[i::scale]` as a
store update on a function model of the array; `blep k` stands for
`minblep[k]`. -/
def writeBlock (m : Nat) (blep : Nat → ℚ) (scale i : Nat)
    (a : Nat → ℚ) : Nat → ℚ :=
  fun j => if i * m ≤ j ∧ j < (i + 1) * m then blep (i + (j - i * m) * scale) else a j

/-- Source: `self.demultiplexed = np.empty(self.minblep.shape, ...)` followed
by the `for i in range(scale)` slice-assignment loop.  The uninitialised
`np.empty` cells are modelled as `0`; no theorem below reads one. -/
def demultiplexed (scale : Nat) (minbli : List ℚ) : Nat → ℚ :=
  (List.range scale).foldl
    (fun a i =>
      writeBlock (mixinsize scale minbli)
        (fun k => (minblep scale minbli).getD k 0) scale i a)
    fun _ => 0

/-! ### Arithmetic facts about the resolved scales -/

theorem idealscale_mul_gcd (naiverate outrate : Nat) :
    idealscale naiverate outrate * Nat.gcd naiverate outrate = naiverate :=
  Nat.div_mul_cancel (Nat.gcd_dvd_left naiverate outrate)

theorem dualscale_mul_gcd (naiverate outrate : Nat) :
    dualscale naiverate outrate * Nat.gcd naiverate outrate = outrate :=
  Nat.div_mul_cancel (Nat.gcd_dvd_right naiverate outrate)

theorem idealscale_pos (naiverate outrate : Nat) (hr : 0 < naiverate) :
    0 < idealscale naiverate outrate :=
  Nat.div_pos (Nat.le_of_dvd hr (Nat.gcd_dvd_left naiverate outrate))
    (Nat.gcd_pos_of_pos_left outrate hr)

theorem dualscale_pos (naiverate outrate : Nat) (hr : 0 < naiverate)
    (ho : 0 < outrate) : 0 < dualscale naiverate outrate :=
  Nat.div_pos (Nat.le_of_dvd ho (Nat.gcd_dvd_right naiverate outrate))
    (Nat.gcd_pos_of_pos_left outrate hr)

theorem rate_mul_dualscale (naiverate outrate : Nat) :
    naiverate * dualscale naiverate outrate =
      outrate * idealscale naiverate outrate := by
  unfold dualscale idealscale
  rw [← Nat.mul_div_assoc naiverate (Nat.gcd_dvd_right naiverate outrate),
    ← Nat.mul_div_assoc outrate (Nat.gcd_dvd_left naiverate outrate),
    Nat.mul_comm naiverate outrate]

/-- With the ideal scale, every in-range naive index maps below `outrate`. -/
theorem naivex2outx_lt (naiverate outrate : Nat) (hr : 0 < naiverate)
    (ho : 0 < outrate) (n : Nat) (hn : n < naiverate) :
    naivex2outx naiverate outrate (idealscale naiverate outrate) n < outrate := by
  have hd := dualscale_pos naiverate outrate hr ho
  have hkey := rate_mul_dualscale naiverate outrate
  apply Nat.div_lt_of_lt_mul
  calc n * dualscale naiverate outrate
      < naiverate * dualscale naiverate outrate :=
        Nat.mul_lt_mul_of_lt_of_le hn (Nat.le_refl _) hd
    _ = idealscale naiverate outrate * outrate := by rw [hkey]; ring

/-- C2: `resolvescale` returns `naiverate / gcd(naiverate, outrate)` when no
scale is requested or the requested scale equals that ideal value, and fails
reporting both the requested and the ideal value otherwise; in particular
`resolvescale 4 6 (some 3)` fails with `(3, 2)` and `resolvescale 4 6 (some 2)`
returns `2`. -/
theorem claim2_resolvescale (a b : Nat) (ha : 0 < a) (hb : 0 < b) :
    resolvescale a b none = Except.ok (a / Nat.gcd a b) ∧
    resolvescale a b (some (a / Nat.gcd a b)) = Except.ok (a / Nat.gcd a b) ∧
    (∀ s : Nat, s ≠ a / Nat.gcd a b →
      resolvescale a b (some s) = Except.error (s, a / Nat.gcd a b)) ∧
    resolvescale 4 6 (some 3) = Except.error (3, 2) ∧
    resolvescale 4 6 (some 2) = Except.ok 2 := by
  refine ⟨rfl, ?_, ?_, rfl, rfl⟩
  · simp [resolvescale, idealscale]
  · intro s hs
    simp [resolvescale, idealscale, hs]

/-- Witness for C2 at the concrete pair `(4, 6)`. -/
theorem claim2_resolvescale_witness :
    0 < 4 ∧ resolvescale 4 6 none = Except.ok 2 :=
  ⟨by decide, (claim2_resolvescale 4 6 (by decide) (by decide)).1⟩

/-- C4: with `dualscale = outrate / gcd(naiverate, outrate)`, construction sets
`naivex2outx[n] = floor(n * dualscale / scale)` for `n` in `[0, naiverate)`,
and `naivex2shape[n] = naivex2outx[n]*scale - n*dualscale + scale - 1` always
lies in `[0, scale)`. -/
theorem claim4_naivex2outx_shape (naiverate outrate scale : Nat)
    (hs : 0 < scale) (n : Nat) (hn : n < naiverate) :
    naivex2outx naiverate outrate scale n =
      n * dualscale naiverate outrate / scale ∧
    naivex2shape naiverate outrate scale n =
      (naivex2outx naiverate outrate scale n : Int) * scale
        - n * dualscale naiverate outrate + scale - 1 ∧
    0 ≤ naivex2shape naiverate outrate scale n ∧
    naivex2shape naiverate outrate scale n < scale := by
  have h2 := Nat.mod_lt (n * dualscale naiverate outrate) hs
  have hchar : naivex2shape naiverate outrate scale n =
      (scale : Int) - 1 - ((n * dualscale naiverate outrate % scale : Nat) : Int) := by
    have h1 := Nat.div_add_mod (n * dualscale naiverate outrate) scale
    have e : ((n * dualscale naiverate outrate : Nat) : Int) =
        (scale : Int) * ((n * dualscale naiverate outrate / scale : Nat) : Int) +
          ((n * dualscale naiverate outrate % scale : Nat) : Int) := by
      exact_mod_cast h1.symm
    unfold naivex2shape naivex2outx
    push_cast
    push_cast at e
    linear_combination -e
  refine ⟨rfl, rfl, ?_, ?_⟩ <;>
    · rw [hchar]
      set M := n * dualscale naiverate outrate % scale with hM
      omega

/-- Witness for C4 at `(naiverate, outrate, scale, n) = (4, 6, 2, 1)`. -/
theorem claim4_naivex2outx_shape_witness :
    (0 < 2 ∧ 1 < 4) ∧
      (0 ≤ naivex2shape 4 6 2 1 ∧ naivex2shape 4 6 2 1 < 2) :=
  ⟨by decide, (claim4_naivex2outx_shape 4 6 2 (by decide) 1 (by decide)).2.2⟩

/-! ### Characterisation of the `outx2minnaivex` construction loop -/

theorem range_reverse_succ (N : Nat) :
    (List.range (N + 1)).reverse = N :: (List.range N).reverse := by
  rw [List.range_succ, List.reverse_append, List.reverse_singleton]
  rfl

/-- Running the write loop over `range(N)[::-1]` stores, at each index `o` hit
by `f`, the least preimage of `o` below `N`; other cells keep their previous
content. -/
theorem outx2minnaivexLoop_range (f : Nat → Nat) :
    ∀ (N : Nat) (a : Nat → Option Nat) (o : Nat),
      outx2minnaivexLoop f (List.range N).reverse a o =
        if h : ∃ n, n < N ∧ f n = o then some (Nat.find h) else a o := by
  intro N
  induction N with
  | zero =>
      intro a o
      rw [dif_neg]
      · rfl
      · rintro ⟨n, hn, -⟩
        exact absurd hn (Nat.not_lt_zero n)
  | succ N ih =>
      intro a o
      rw [range_reverse_succ]
      have hstep : outx2minnaivexLoop f (N :: (List.range N).reverse) a o =
          outx2minnaivexLoop f (List.range N).reverse
            (fun p => if p = f N then some N else a p) o := rfl
      rw [hstep, ih]
      by_cases h1 : ∃ n, n < N ∧ f n = o
      · have h2 : ∃ n, n < N + 1 ∧ f n = o := by
          obtain ⟨n, hn, hfn⟩ := h1
          exact ⟨n, Nat.lt_succ_of_lt hn, hfn⟩
        rw [dif_pos h1, dif_pos h2]
        have hfind : Nat.find h1 = Nat.find h2 := by
          apply Nat.le_antisymm
          · obtain ⟨hlt, hfeq⟩ := Nat.find_spec h2
            rcases Nat.lt_succ_iff_lt_or_eq.mp hlt with hlt' | heq
            · exact Nat.find_min' h1 ⟨hlt', hfeq⟩
            · obtain ⟨n, hn, hfn⟩ := id h1
              have hle := Nat.find_min' h1 ⟨hn, hfn⟩
              omega
          · obtain ⟨hlt, hfeq⟩ := Nat.find_spec h1
            exact Nat.find_min' h2 ⟨Nat.lt_succ_of_lt hlt, hfeq⟩
        rw [hfind]
      · rw [dif_neg h1]
        show (if o = f N then some N else a o) = _
        by_cases h2 : o = f N
        · have h3 : ∃ n, n < N + 1 ∧ f n = o := ⟨N, Nat.lt_succ_self N, h2.symm⟩
          rw [if_pos h2, dif_pos h3]
          have hfind : Nat.find h3 = N := by
            rw [Nat.find_eq_iff]
            refine ⟨⟨Nat.lt_succ_self N, h2.symm⟩, ?_⟩
            rintro k hk ⟨-, hfk⟩
            exact h1 ⟨k, hk, hfk⟩
          rw [hfind]
        · rw [if_neg h2, dif_neg]
          rintro ⟨n, hn, hfn⟩
          rcases Nat.lt_succ_iff_lt_or_eq.mp hn with hlt | heq
          · exact h1 ⟨n, hlt, hfn⟩
          · exact h2 (heq ▸ hfn).symm

/-- C5: after the construction loop that iterates `naivex` from
`naiverate - 1` down to `0` writing `outx2minnaivex[naivex2outx[naivex]] =
naivex`, every output index `o` in the image of `naivex2outx` holds the
smallest naive index `m` in `[0, naiverate)` with `naivex2outx[m] == o`. -/
theorem claim5_outx2minnaivex_least (naiverate outrate scale : Nat) (o m : Nat)
    (hm : m < naiverate ∧ naivex2outx naiverate outrate scale m = o ∧
      ∀ k, k < m → naivex2outx naiverate outrate scale k ≠ o) :
    outx2minnaivex naiverate outrate scale o = some m := by
  obtain ⟨hmlt, hmo, hleast⟩ := hm
  have h : ∃ n, n < naiverate ∧ naivex2outx naiverate outrate scale n = o :=
    ⟨m, hmlt, hmo⟩
  unfold outx2minnaivex
  rw [outx2minnaivexLoop_range, dif_pos h]
  have : Nat.find h = m := by
    rw [Nat.find_eq_iff]
    exact ⟨⟨hmlt, hmo⟩, fun k hk hpk => hleast k hk hpk.2⟩
  rw [this]

/-- Witness for C5 with `(naiverate, outrate, scale) = (4, 6, 2)`, where
`naivex2outx = [0, 1, 3, 4]`: output index `1` stores naive index `1`. -/
theorem claim5_outx2minnaivex_least_witness :
    (1 < 4 ∧ naivex2outx 4 6 2 1 = 1 ∧ ∀ k, k < 1 → naivex2outx 4 6 2 k ≠ 1) ∧
      outx2minnaivex 4 6 2 1 = some 1 :=
  ⟨by decide, claim5_outx2minnaivex_least 4 6 2 1 1 (by decide)⟩

/-- C3: for every naive index `n` in `[0, naiverate)` the constructed maps
satisfy `naivex2outx[outx2minnaivex[naivex2outx[n]]] == naivex2outx[n]`, the
inner lookup being an initialised cell holding some naive index `m`. -/
theorem claim3_map_roundtrip (naiverate outrate : Nat) (hr : 0 < naiverate)
    (ho : 0 < outrate) (n : Nat) (hn : n < naiverate) :
    ∃ m : Nat,
      outx2minnaivex naiverate outrate (idealscale naiverate outrate)
        (naivex2outx naiverate outrate (idealscale naiverate outrate) n) =
          some m ∧
      naivex2outx naiverate outrate (idealscale naiverate outrate) m =
        naivex2outx naiverate outrate (idealscale naiverate outrate) n := by
  have h : ∃ k, k < naiverate ∧
      naivex2outx naiverate outrate (idealscale naiverate outrate) k =
        naivex2outx naiverate outrate (idealscale naiverate outrate) n :=
    ⟨n, hn, rfl⟩
  refine ⟨Nat.find h, ?_, (Nat.find_spec h).2⟩
  unfold outx2minnaivex
  rw [outx2minnaivexLoop_range, dif_pos h]

/-- Witness for C3 at `(naiverate, outrate) = (4, 6)` and `n = 2`. -/
theorem claim3_map_roundtrip_witness :
    (0 < 4 ∧ 2 < 4) ∧
      ∃ m : Nat, outx2minnaivex 4 6 (idealscale 4 6) (naivex2outx 4 6 (idealscale 4 6) 2) = some m ∧
        naivex2outx 4 6 (idealscale 4 6) m = naivex2outx 4 6 (idealscale 4 6) 2 :=
  ⟨by decide, claim3_map_roundtrip 4 6 (by decide) (by decide) 2 (by decide)⟩

/-- C1: for every `naivex` in `[0, naiverate)` and every `naiveN ≥ 0`, the
minimum naive-sample count reported by `getminnaiven` for the output count
actually produced by consuming `naiveN` naive samples never exceeds `naiveN`
(and the lookup involved never reads an uninitialised cell). -/
theorem claim1_getminnaiven_le_getoutcount (naiverate outrate : Nat)
    (hr : 0 < naiverate) (ho : 0 < outrate) (naivex naiven : Nat)
    (hx : naivex < naiverate) :
    ∃ v : Int,
      getminnaiven naiverate outrate (idealscale naiverate outrate) naivex
          (getoutcount naiverate outrate (idealscale naiverate outrate)
            naivex naiven) = some v ∧
        v ≤ (naiven : Int) := by
  have hsum := Nat.div_add_mod (naivex + naiven) naiverate
  have hb1 : naivex + naiven - naiverate * ((naivex + naiven) / naiverate) =
      (naivex + naiven) % naiverate := by omega
  have hblt : (naivex + naiven) % naiverate < naiverate :=
    Nat.mod_lt _ hr
  have hflt : naivex2outx naiverate outrate (idealscale naiverate outrate)
      ((naivex + naiven) % naiverate) < outrate :=
    naivex2outx_lt naiverate outrate hr ho _ hblt
  have hex : ∃ n, n < naiverate ∧
      naivex2outx naiverate outrate (idealscale naiverate outrate) n =
        naivex2outx naiverate outrate (idealscale naiverate outrate)
          ((naivex + naiven) % naiverate) :=
    ⟨(naivex + naiven) % naiverate, hblt, rfl⟩
  have hlookup : outx2minnaivex naiverate outrate (idealscale naiverate outrate)
      (naivex2outx naiverate outrate (idealscale naiverate outrate)
        ((naivex + naiven) % naiverate)) = some (Nat.find hex) := by
    unfold outx2minnaivex
    rw [outx2minnaivexLoop_range, dif_pos hex]
  have hmle : Nat.find hex ≤ (naivex + naiven) % naiverate :=
    Nat.find_min' hex ⟨hblt, rfl⟩
  refine ⟨(Nat.find hex : Int) -
      ((naivex : Int) - (naiverate : Int) * ((naivex + naiven) / naiverate : Nat)),
    ?_, ?_⟩
  · simp only [getminnaiven, getoutcount]
    rw [hb1]
    have houtx :
        (naivex2outx naiverate outrate (idealscale naiverate outrate) naivex : Int) +
            ((naivex2outx naiverate outrate (idealscale naiverate outrate)
                ((naivex + naiven) % naiverate) : Int) -
              ((naivex2outx naiverate outrate (idealscale naiverate outrate)
                  naivex : Int) -
                (outrate : Int) * ((naivex + naiven) / naiverate : Nat))) =
          (naivex2outx naiverate outrate (idealscale naiverate outrate)
              ((naivex + naiven) % naiverate) : Int) +
            (outrate : Int) * ((naivex + naiven) / naiverate : Nat) := by
      ring
    rw [houtx]
    have ht0 : (outrate : Int) ≠ 0 := by
      exact_mod_cast ho.ne'
    have hshift :
        Int.fdiv
            ((naivex2outx naiverate outrate (idealscale naiverate outrate)
                ((naivex + naiven) % naiverate) : Int) +
              (outrate : Int) * ((naivex + naiven) / naiverate : Nat))
            (outrate : Int) =
          ((naivex + naiven) / naiverate : Nat) := by
      rw [Int.fdiv_eq_ediv _ (by omega : (0 : Int) ≤ (outrate : Int))]
      rw [Int.add_mul_ediv_left _ _ ht0]
      rw [Int.ediv_eq_zero_of_lt (by omega) (by exact_mod_cast hflt)]
      simp
    rw [hshift]
    have hcancel :
        (naivex2outx naiverate outrate (idealscale naiverate outrate)
              ((naivex + naiven) % naiverate) : Int) +
            (outrate : Int) * ((naivex + naiven) / naiverate : Nat) -
          (outrate : Int) * ((naivex + naiven) / naiverate : Nat) =
          (naivex2outx naiverate outrate (idealscale naiverate outrate)
            ((naivex + naiven) % naiverate) : Int) := by
      ring
    rw [hcancel, Int.toNat_natCast, hlookup]
  · have hsum' : (naiverate : Int) * ((naivex + naiven) / naiverate : Nat) +
        ((naivex + naiven) % naiverate : Nat) =
          (naivex : Int) + (naiven : Int) := by
      exact_mod_cast hsum
    have hmle' : (Nat.find hex : Int) ≤ ((naivex + naiven) % naiverate : Nat) := by
      exact_mod_cast hmle
    linarith

/-- Witness for C1 at `(naiverate, outrate, naivex, naiveN) = (4, 6, 1, 5)`. -/
theorem claim1_getminnaiven_le_getoutcount_witness :
    (0 < 4 ∧ 1 < 4) ∧
      ∃ v : Int,
        getminnaiven 4 6 (idealscale 4 6) 1 (getoutcount 4 6 (idealscale 4 6) 1 5) =
            some v ∧
          v ≤ (5 : Int) :=
  ⟨by decide,
    claim1_getminnaiven_le_getoutcount 4 6 (by decide) (by decide) 1 5 (by decide)⟩

/-! ### Surjectivity of `naivex2outx` and the uninitialised cells of
`outx2minnaivex` -/

/-- Ceiling-division arithmetic: when `d ≤ s` and `R * d = T * s`, the index
`ceil(o*s/d)` lies below `R` and maps to `o` under `fun n => n * d / s`. -/
theorem ceil_preimage (o s d R T : Nat) (hd : 0 < d) (hds : d ≤ s)
    (hkey : R * d = T * s) (hov : o < T) :
    (o * s + d - 1) / d < R ∧ ((o * s + d - 1) / d) * d / s = o := by
  have hqd := Nat.div_add_mod (o * s + d - 1) d
  have hrr := Nat.mod_lt (o * s + d - 1) hd
  set q := (o * s + d - 1) / d with hq
  set rr := (o * s + d - 1) % d with hrd
  have e1 : d * q = q * d := Nat.mul_comm d q
  rw [e1] at hqd
  have e2 : (o + 1) * s = o * s + s := Nat.succ_mul o s
  have h1 : (o + 1) * s ≤ T * s := Nat.mul_le_mul_right s hov
  have hlo : o * s ≤ q * d := by omega
  constructor
  · have hqR : q * d < R * d := by omega
    exact Nat.lt_of_mul_lt_mul_right hqR
  · exact Nat.div_eq_of_lt_le hlo (by omega)

/-- With the ideal scale, `dualscale ≤ idealscale` exactly expresses
`outrate ≤ naiverate`. -/
theorem dualscale_le_idealscale (naiverate outrate : Nat) (hr : 0 < naiverate)
    (hle : outrate ≤ naiverate) :
    dualscale naiverate outrate ≤ idealscale naiverate outrate := by
  have hg : 0 < Nat.gcd naiverate outrate := Nat.gcd_pos_of_pos_left outrate hr
  by_contra hcon
  push_neg at hcon
  have h1 := idealscale_mul_gcd naiverate outrate
  have h2 := dualscale_mul_gcd naiverate outrate
  have hlt : idealscale naiverate outrate * Nat.gcd naiverate outrate <
      dualscale naiverate outrate * Nat.gcd naiverate outrate :=
    (Nat.mul_lt_mul_right hg).mpr hcon
  omega

/-- When `outrate ≤ naiverate`, every output index below `outrate` has a naive
preimage under `naivex2outx` (ideal scale). -/
theorem naivex2outx_surj (naiverate outrate : Nat) (hr : 0 < naiverate)
    (ho : 0 < outrate) (hle : outrate ≤ naiverate) (o : Nat) (hov : o < outrate) :
    ∃ n, n < naiverate ∧
      naivex2outx naiverate outrate (idealscale naiverate outrate) n = o := by
  have hd := dualscale_pos naiverate outrate hr ho
  have hds := dualscale_le_idealscale naiverate outrate hr hle
  have hkey := rate_mul_dualscale naiverate outrate
  obtain ⟨hlt, heq⟩ := ceil_preimage o (idealscale naiverate outrate)
    (dualscale naiverate outrate) naiverate outrate hd hds hkey hov
  exact ⟨_, hlt, heq⟩

/-- Conversely, if `naivex2outx` is onto `[0, outrate)` then
`outrate ≤ naiverate`, by counting. -/
theorem outrate_le_of_surj (naiverate outrate : Nat)
    (hsurj : ∀ o, o < outrate → ∃ n, n < naiverate ∧
      naivex2outx naiverate outrate (idealscale naiverate outrate) n = o) :
    outrate ≤ naiverate := by
  have h : Set.SurjOn (naivex2outx naiverate outrate (idealscale naiverate outrate))
      (Finset.range naiverate) (Finset.range outrate) := by
    intro o hov
    simp only [Finset.coe_range, Set.mem_Iio] at hov
    obtain ⟨n, hn, hfn⟩ := hsurj o hov
    exact ⟨n, by simpa using hn, hfn⟩
  have hcard := Finset.card_le_card_of_surjOn _ h
  simpa using hcard

/-- C6: `outx2minnaivex` is allocated uninitialised and the loop writes only
the image of `naivex2outx`: every one of its `outrate` cells is written iff
`naiverate ≥ outrate`; when `outrate > naiverate` some cell stays
uninitialised, and `getminnaiven` reads an unspecified value exactly when the
wrapped output index `(naivex2outx[naivex] + outcount) mod outrate` is not of
the form `naivex2outx[n]`. -/
theorem claim6_uninitialised_cells (naiverate outrate : Nat) (hr : 0 < naiverate)
    (ho : 0 < outrate) :
    ((∀ o, o < outrate →
        outx2minnaivex naiverate outrate (idealscale naiverate outrate) o ≠ none) ↔
      outrate ≤ naiverate) ∧
    (naiverate < outrate → ∃ o, o < outrate ∧
      outx2minnaivex naiverate outrate (idealscale naiverate outrate) o = none) ∧
    (∀ naivex : Nat, ∀ outcount : Int,
      (∀ n, n < naiverate →
        ((naivex2outx naiverate outrate (idealscale naiverate outrate) n : Int) ≠
          Int.fmod ((naivex2outx naiverate outrate (idealscale naiverate outrate)
            naivex : Int) + outcount) outrate)) →
      getminnaiven naiverate outrate (idealscale naiverate outrate) naivex
        outcount = none) := by
  have hchar : ∀ o : Nat,
      outx2minnaivex naiverate outrate (idealscale naiverate outrate) o = none ↔
        ¬∃ n, n < naiverate ∧
          naivex2outx naiverate outrate (idealscale naiverate outrate) n = o := by
    intro o
    unfold outx2minnaivex
    rw [outx2minnaivexLoop_range]
    by_cases h : ∃ n, n < naiverate ∧
        naivex2outx naiverate outrate (idealscale naiverate outrate) n = o
    · rw [dif_pos h]
      simp [h]
    · rw [dif_neg h]
      simp [h]
  refine ⟨?_, ?_, ?_⟩
  · constructor
    · intro hall
      apply outrate_le_of_surj naiverate outrate
      intro o hov
      have := hall o hov
      rw [Ne, hchar o, not_not] at this
      exact this
    · intro hle o hov
      rw [Ne, hchar o, not_not]
      exact naivex2outx_surj naiverate outrate hr ho hle o hov
  · intro hlt
    by_contra hcon
    push_neg at hcon
    have hsurj : ∀ o, o < outrate → ∃ n, n < naiverate ∧
        naivex2outx naiverate outrate (idealscale naiverate outrate) n = o := by
      intro o hov
      have := hcon o hov
      rw [Ne, hchar o, not_not] at this
      exact this
    have := outrate_le_of_surj naiverate outrate hsurj
    omega
  · intro naivex outcount hne
    have h0 : 0 ≤ Int.fmod ((naivex2outx naiverate outrate
        (idealscale naiverate outrate) naivex : Int) + outcount) outrate :=
      Int.fmod_nonneg' _ (by exact_mod_cast ho)
    have hnone : outx2minnaivex naiverate outrate (idealscale naiverate outrate)
        (((naivex2outx naiverate outrate (idealscale naiverate outrate)
            naivex : Int) + outcount -
          (outrate : Int) * Int.fdiv ((naivex2outx naiverate outrate
            (idealscale naiverate outrate) naivex : Int) + outcount)
            (outrate : Int)).toNat) = none := by
      rw [show ((naivex2outx naiverate outrate (idealscale naiverate outrate)
            naivex : Int) + outcount -
          (outrate : Int) * Int.fdiv ((naivex2outx naiverate outrate
            (idealscale naiverate outrate) naivex : Int) + outcount)
            (outrate : Int)) =
          Int.fmod ((naivex2outx naiverate outrate (idealscale naiverate outrate)
            naivex : Int) + outcount) (outrate : Int) from
        (Int.fmod_def _ _).symm]
      rw [hchar]
      rintro ⟨n, hn, hfn⟩
      apply hne n hn
      rw [← Int.toNat_of_nonneg h0, ← hfn]
    simp only [getminnaiven]
    rw [hnone]

/-- Witness for C6 at `(naiverate, outrate) = (4, 6)`: output index `2` is
never written since `naivex2outx = [0, 1, 3, 4]`. -/
theorem claim6_uninitialised_cells_witness :
    0 < 4 ∧ (4 < 6 → ∃ o, o < 6 ∧ outx2minnaivex 4 6 (idealscale 4 6) o = none) :=
  ⟨by decide, (claim6_uninitialised_cells 4 6 (by decide) (by decide)).2.1⟩

/-! ### Kernel sizing: `order`, `kernelsize` and the power-of-two `size` -/

/-- For a positive argument the truncating conversion in `round` is a floor. -/
theorem order_eq_floor (transition : ℚ) (h0 : 0 < transition) :
    order transition = 2 * Int.floor (4 / transition / 2 + 1/2) := by
  unfold order round
  rw [if_pos]
  · ring
  · have hpos : 0 < 4 / transition / 2 := by positivity
    linarith

/-- The doubling loop started at a power of two returns the least power of two
that reaches `kernelsize`, provided every smaller power is still short of it. -/
theorem sizeLoop_pow (k : Int) :
    ∀ (fuel a : Nat), (k - ((2 ^ a : Nat) : Int)).toNat ≤ fuel →
      (∀ b, b < a → ((2 ^ b : Nat) : Int) < k) →
      ∃ c : Nat, a ≤ c ∧ sizeLoop k (2 ^ a) = 2 ^ c ∧
        k ≤ ((2 ^ c : Nat) : Int) ∧
        ∀ b, b < c → ((2 ^ b : Nat) : Int) < k := by
  intro fuel
  induction fuel with
  | zero =>
      intro a hfuel hbelow
      have hpos : 0 < (2 : Nat) ^ a := Nat.pos_pow_of_pos a (by omega)
      have hstop : ¬ (((2 ^ a : Nat) : Int) < k) := by omega
      refine ⟨a, Nat.le_refl a, ?_, by omega, hbelow⟩
      rw [sizeLoop, dif_neg]
      rintro ⟨-, hlt⟩
      exact hstop hlt
  | succ fuel ih =>
      intro a hfuel hbelow
      have hpos : 0 < (2 : Nat) ^ a := Nat.pos_pow_of_pos a (by omega)
      by_cases hlt : ((2 ^ a : Nat) : Int) < k
      · have hstep : sizeLoop k (2 ^ a) = sizeLoop k (2 ^ (a + 1)) := by
          rw [sizeLoop, dif_pos ⟨hpos, hlt⟩, pow_succ]
        have hdouble : ((2 : Nat) ^ (a + 1) : Int) = 2 * ((2 ^ a : Nat) : Int) := by
          push_cast [pow_succ]
          ring
        have hfuel' : (k - ((2 ^ (a + 1) : Nat) : Int)).toNat ≤ fuel := by
          have h1 : (1 : Int) ≤ ((2 ^ a : Nat) : Int) := by exact_mod_cast hpos
          omega
        have hbelow' : ∀ b, b < a + 1 → ((2 ^ b : Nat) : Int) < k := by
          intro b hb
          rcases Nat.lt_succ_iff_lt_or_eq.mp hb with hb' | hb'
          · exact hbelow b hb'
          · rw [hb']
            exact hlt
        obtain ⟨c, hac, hrun, hk, hmin⟩ := ih (a + 1) hfuel' hbelow'
        exact ⟨c, by omega, hstep.trans hrun, hk, hmin⟩
      · refine ⟨a, Nat.le_refl a, ?_, by omega, hbelow⟩
        rw [sizeLoop, dif_neg]
        rintro ⟨-, hcon⟩
        exact hlt hcon

/-- The `size` of the construction is the least power of two at or above
`kernelsize`. -/
theorem size_spec (transition : ℚ) (scale : Nat) :
    ∃ c : Nat, size transition scale = 2 ^ c ∧
      kernelsize transition scale ≤ ((2 ^ c : Nat) : Int) ∧
      ∀ b, b < c → ((2 ^ b : Nat) : Int) < kernelsize transition scale := by
  obtain ⟨c, -, hrun, hk, hmin⟩ :=
    sizeLoop_pow (kernelsize transition scale)
      (kernelsize transition scale - ((2 ^ 0 : Nat) : Int)).toNat 0
      (Nat.le_refl _) (by intro b hb; omega)
  refine ⟨c, ?_, hk, hmin⟩
  unfold size
  rw [show (1 : Nat) = 2 ^ 0 from rfl]
  exact hrun

/-- C7: for every `transition` with `0 < transition < 1` and every positive
`scale`, construction computes `order` as the nearest even integer to
`4/transition` with round-half-up tie breaking (the `floor(x+0.5)` rule),
`kernelsize = order*scale + 1`, and `size` as the smallest power of two at or
above `kernelsize`. -/
theorem claim7_order_kernelsize_size (transition : ℚ) (scale : Nat)
    (h0 : 0 < transition) (h1 : transition < 1) (hs : 0 < scale) :
    Even (order transition) ∧
    (∀ m : Int, Even m →
      |4 / transition - ((order transition : Int) : ℚ)| ≤
          |4 / transition - (m : ℚ)| ∧
        (|4 / transition - ((order transition : Int) : ℚ)| =
            |4 / transition - (m : ℚ)| →
          m ≤ order transition)) ∧
    kernelsize transition scale = order transition * scale + 1 ∧
    (∃ c : Nat, size transition scale = 2 ^ c) ∧
    kernelsize transition scale ≤ ((size transition scale : Nat) : Int) ∧
    (∀ j : Nat, kernelsize transition scale ≤ ((2 ^ j : Nat) : Int) →
      size transition scale ≤ 2 ^ j) := by
  have horder := order_eq_floor transition h0
  have hfl1 : ((Int.floor (4 / transition / 2 + 1/2) : Int) : ℚ) ≤
      4 / transition / 2 + 1/2 := Int.floor_le _
  have hfl2 : 4 / transition / 2 + 1/2 <
      ((Int.floor (4 / transition / 2 + 1/2) : Int) : ℚ) + 1 :=
    Int.lt_floor_add_one _
  obtain ⟨c, hc, hck, hcmin⟩ := size_spec transition scale
  refine ⟨⟨round (4 / transition / 2), by unfold order; ring⟩, ?_, rfl,
    ⟨c, hc⟩, by rw [hc]; exact hck, ?_⟩
  · intro m hm
    obtain ⟨j, rfl⟩ := hm
    rw [horder]
    have hy1 : 2 * ((Int.floor (4 / transition / 2 + 1/2) : Int) : ℚ) - 1 ≤
        4 / transition := by linarith
    have hy2 : 4 / transition <
        2 * ((Int.floor (4 / transition / 2 + 1/2) : Int) : ℚ) + 1 := by
      linarith
    have habs : |4 / transition -
        ((2 * Int.floor (4 / transition / 2 + 1/2) : Int) : ℚ)| ≤ 1 := by
      rw [abs_le]
      constructor <;> · push_cast; linarith
    rcases lt_trichotomy j (Int.floor (4 / transition / 2 + 1/2)) with
      hjc | hjc | hjc
    · have hjc' : (j : ℚ) + 1 ≤ ((Int.floor (4 / transition / 2 + 1/2) : Int) : ℚ) := by
        exact_mod_cast hjc
      have hgap : 1 ≤ 4 / transition - ((j + j : Int) : ℚ) := by
        push_cast
        linarith
      constructor
      · calc |4 / transition -
              ((2 * Int.floor (4 / transition / 2 + 1/2) : Int) : ℚ)| ≤ 1 := habs
          _ ≤ 4 / transition - ((j + j : Int) : ℚ) := hgap
          _ ≤ |4 / transition - ((j + j : Int) : ℚ)| := le_abs_self _
      · intro _
        omega
    · rw [hjc]
      refine ⟨le_of_eq ?_, fun _ => by omega⟩
      congr 1
      push_cast
      ring
    · have hjc' : ((Int.floor (4 / transition / 2 + 1/2) : Int) : ℚ) + 1 ≤ (j : ℚ) := by
        exact_mod_cast hjc
      have hgap : 1 < ((j + j : Int) : ℚ) - 4 / transition := by
        push_cast
        linarith
      have hother : 1 < |4 / transition - ((j + j : Int) : ℚ)| := by
        calc (1 : ℚ) < ((j + j : Int) : ℚ) - 4 / transition := hgap
          _ = -(4 / transition - ((j + j : Int) : ℚ)) := by ring
          _ ≤ |4 / transition - ((j + j : Int) : ℚ)| := neg_le_abs _
      refine ⟨le_of_lt (lt_of_le_of_lt habs hother), fun hEq => ?_⟩
      rw [hEq] at habs
      linarith
  · intro j hkj
    have hcj : c ≤ j := by
      by_contra hcon
      push_neg at hcon
      have := hcmin j hcon
      omega
    rw [hc]
    exact Nat.pow_le_pow_right (by omega) hcj

/-- Witness for C7 at `transition = 1/10`, `scale = 2`: here `4/transition`
is `40` and `order` is `40`. -/
theorem claim7_order_kernelsize_size_witness :
    ((0 : ℚ) < 1/10 ∧ (1/10 : ℚ) < 1 ∧ 0 < 2) ∧
      (kernelsize (1/10) 2 = order (1/10) * 2 + 1 ∧
        ∃ c : Nat, size (1/10) 2 = 2 ^ c) :=
  ⟨by norm_num,
    ((claim7_order_kernelsize_size (1/10) 2 (by norm_num) (by norm_num)
      (by norm_num)).2.2.1),
    ((claim7_order_kernelsize_size (1/10) 2 (by norm_num) (by norm_num)
      (by norm_num)).2.2.2.1)⟩

/-- C9: the source raises no configuration error for `order`, `kernelsize` or
`size`; on the spec's parameter domain (`0 < transition < 1`, positive
`scale`) all three derived quantities are provably positive, so the condition
"fails iff one of them is non-positive" holds with both sides false: the
computation always proceeds. -/
theorem claim9_sizes_positive (transition : ℚ) (scale : Nat)
    (h0 : 0 < transition) (h1 : transition < 1) (hs : 0 < scale) :
    0 < order transition ∧ 0 < kernelsize transition scale ∧
      0 < size transition scale := by
  have horder := order_eq_floor transition h0
  have hfl : (2 : Int) ≤ Int.floor (4 / transition / 2 + 1/2) := by
    rw [Int.le_floor]
    have hlt : (2 : ℚ) < 4 / transition / 2 := by
      rw [div_div, lt_div_iff₀ (by positivity)]
      linarith
    push_cast
    linarith
  have ho : 0 < order transition := by omega
  refine ⟨ho, ?_, ?_⟩
  · unfold kernelsize
    have hmul : 0 ≤ order transition * (scale : Int) :=
      mul_nonneg (by omega) (by omega)
    omega
  · obtain ⟨c, hc, -, -⟩ := size_spec transition scale
    rw [hc]
    exact Nat.pos_pow_of_pos c (by omega)

/-- Witness for C9 at `transition = 1/10`, `scale = 2`. -/
theorem claim9_sizes_positive_witness :
    ((0 : ℚ) < 1/10 ∧ (1/10 : ℚ) < 1 ∧ 0 < 2) ∧
      (0 < order (1/10) ∧ 0 < kernelsize (1/10) 2 ∧ 0 < size (1/10) 2) :=
  ⟨by norm_num,
    claim9_sizes_positive (1/10) 2 (by norm_num) (by norm_num) (by norm_num)⟩

/-! ### Step-table padding and polyphase demultiplexing -/

/-- Python's `(-n) % scale` pad count: it is below `scale` and completes `n`
to a multiple of `scale`. -/
theorem pad_mod (scale n : Nat) (hs : 0 < scale) :
    (n + (scale - n % scale) % scale) % scale = 0 ∧
      (scale - n % scale) % scale < scale := by
  have hd := Nat.div_add_mod n scale
  have hm : n % scale < scale := Nat.mod_lt n hs
  rcases Nat.eq_zero_or_pos (n % scale) with h0 | h0
  · rw [h0, Nat.sub_zero, Nat.mod_self]
    exact ⟨by rw [Nat.add_zero]; exact h0, hs⟩
  · have hp : scale - n % scale < scale := by omega
    rw [Nat.mod_eq_of_lt hp]
    refine ⟨?_, hp⟩
    have he : n + (scale - n % scale) = scale * (n / scale + 1) := by
      rw [Nat.mul_add, Nat.mul_one]
      omega
    rw [he]
    exact Nat.mul_mod_right scale _

/-- Positions outside every block of the written list keep the initial store
content. -/
theorem foldl_writeBlock_untouched (m : Nat) (blep : Nat → ℚ) (scale : Nat) :
    ∀ (l : List Nat) (a : Nat → ℚ) (j : Nat),
      (∀ i, i ∈ l → ¬(i * m ≤ j ∧ j < (i + 1) * m)) →
      (l.foldl (fun a i => writeBlock m blep scale i a) a) j = a j := by
  intro l
  induction l with
  | nil => intro a j _; rfl
  | cons x xs ih =>
      intro a j h
      rw [List.foldl_cons, ih _ j (fun i hi => h i (List.mem_cons_of_mem x hi))]
      unfold writeBlock
      rw [if_neg (h x (List.mem_cons_self x xs))]

/-- Position `k` of block `i` receives sample `i + k * scale` of the step
table, for any duplicate-free write order containing `i`. -/
theorem foldl_writeBlock_get (m : Nat) (blep : Nat → ℚ) (scale : Nat) :
    ∀ (l : List Nat) (a : Nat → ℚ) (i k : Nat), i ∈ l → l.Nodup → k < m →
      (l.foldl (fun a i => writeBlock m blep scale i a) a) (i * m + k) =
        blep (i + k * scale) := by
  intro l
  induction l with
  | nil => intro a i k hi _ _; exact absurd hi (List.not_mem_nil i)
  | cons x xs ih =>
      intro a i k hi hnd hk
      rw [List.foldl_cons]
      rcases List.mem_cons.mp hi with rfl | hmem
      · have hx : i ∉ xs := (List.nodup_cons.mp hnd).1
        rw [foldl_writeBlock_untouched m blep scale xs _ _ ?hout]
        case hout =>
          intro p hp hcon
          obtain ⟨hc1, hc2⟩ := hcon
          rcases Nat.lt_trichotomy p i with hlt | heq | hgt
          · have h3 : (p + 1) * m ≤ i * m := Nat.mul_le_mul_right m hlt
            omega
          · exact hx (heq ▸ hp)
          · have h3 : (i + 1) * m ≤ p * m := Nat.mul_le_mul_right m hgt
            have hexp : (i + 1) * m = i * m + m := Nat.succ_mul i m
            omega
        unfold writeBlock
        rw [if_pos ⟨Nat.le_add_right _ _, by
          have hexp : (i + 1) * m = i * m + m := by
            rw [Nat.add_mul, Nat.one_mul]
          omega⟩]
        have hcancel : i * m + k - i * m = k := by omega
        rw [hcancel]
      · exact ih _ i k hmem (List.nodup_cons.mp hnd).2 hk

/-- The slice-assignment loop realises the strided read
`minblep[i::scale]` inside block `i` of `demultiplexed`. -/
theorem demultiplexed_get (scale : Nat) (minbli : List ℚ) (i k : Nat)
    (hi : i < scale) (hk : k < mixinsize scale minbli) :
    demultiplexed scale minbli (i * mixinsize scale minbli + k) =
      (minblep scale minbli).getD (i + k * scale) 0 := by
  unfold demultiplexed
  exact foldl_writeBlock_get (mixinsize scale minbli) _ scale
    (List.range scale) _ i k (List.mem_range.mpr hi) (List.nodup_range scale) hk

/-- C8: the finished step table is the cumulative sum left-padded with exactly
`scale - 1` zeros and right-padded with fewer than `scale` ones until its
length is a multiple of `scale`; `mixinsize` is that length divided by
`scale`; and block `i` of `demultiplexed` is the subsequence
`minblep[i], minblep[i+scale], minblep[i+2*scale], ...`. -/
theorem claim8_padding_demux (scale : Nat) (hs : 0 < scale) (minbli : List ℚ) :
    (∃ pad : Nat, pad < scale ∧
      minblep scale minbli =
        List.replicate (scale - 1) 0 ++ cumsum minbli ++ List.replicate pad 1) ∧
    (minblep scale minbli).length % scale = 0 ∧
    mixinsize scale minbli = (minblep scale minbli).length / scale ∧
    scale * mixinsize scale minbli = (minblep scale minbli).length ∧
    (∀ i, i < scale → ∀ k, k < mixinsize scale minbli →
      i + k * scale < (minblep scale minbli).length ∧
      demultiplexed scale minbli (i * mixinsize scale minbli + k) =
        (minblep scale minbli).getD (i + k * scale) 0) := by
  obtain ⟨hmod, hlt⟩ :=
    pad_mod scale (List.replicate (scale - 1) (0 : ℚ) ++ cumsum minbli).length hs
  have hlen : (minblep scale minbli).length =
      (List.replicate (scale - 1) (0 : ℚ) ++ cumsum minbli).length +
        (scale - (List.replicate (scale - 1) (0 : ℚ) ++
          cumsum minbli).length % scale) % scale := by
    unfold minblep
    rw [List.length_append, List.length_replicate]
  have hmod' : (minblep scale minbli).length % scale = 0 := by
    rw [hlen]
    exact hmod
  have hdvd : scale ∣ (minblep scale minbli).length :=
    Nat.dvd_of_mod_eq_zero hmod'
  have hfull : scale * mixinsize scale minbli = (minblep scale minbli).length :=
    Nat.mul_div_cancel' hdvd
  refine ⟨⟨_, hlt, by unfold minblep; rw [List.append_assoc]⟩, hmod', rfl, hfull,
    ?_⟩
  intro i hi k hk
  refine ⟨?_, demultiplexed_get scale minbli i k hi hk⟩
  have h1 : (k + 1) * scale ≤ mixinsize scale minbli * scale :=
    Nat.mul_le_mul_right scale hk
  have h2 : (k + 1) * scale = k * scale + scale := Nat.succ_mul k scale
  have h3 : mixinsize scale minbli * scale = scale * mixinsize scale minbli :=
    Nat.mul_comm _ _
  omega

/-- Witness for C8 at `scale = 2`, `minbli = [1, 2]`: the padded table is
`[0, 1, 3, 1]` with `mixinsize = 2`. -/
theorem claim8_padding_demux_witness :
    0 < 2 ∧ ((minblep 2 [(1 : ℚ), 2]).length % 2 = 0 ∧
      mixinsize 2 [(1 : ℚ), 2] = (minblep 2 [(1 : ℚ), 2]).length / 2) :=
  ⟨by decide,
    (claim8_padding_demux 2 (by decide) [(1 : ℚ), 2]).2.1,
    (claim8_padding_demux 2 (by decide) [(1 : ℚ), 2]).2.2.1⟩

/-- C10: when `naiverate == outrate` the resolved scale is `1`,
`naivex2outx` is the identity on `[0, naiverate)`, and `demultiplexed`
consists of exactly one phase equal to the full step table (which, with
`scale = 1`, is the bare cumulative sum). -/
theorem claim10_equal_rates (naiverate : Nat) (hr : 0 < naiverate)
    (minbli : List ℚ) :
    idealscale naiverate naiverate = 1 ∧
    resolvescale naiverate naiverate none = Except.ok 1 ∧
    (∀ i, i < naiverate → naivex2outx naiverate naiverate 1 i = i) ∧
    minblep 1 minbli = cumsum minbli ∧
    mixinsize 1 minbli = (minblep 1 minbli).length ∧
    (∀ j, j < (minblep 1 minbli).length →
      demultiplexed 1 minbli j = (minblep 1 minbli).getD j 0) := by
  have hideal : idealscale naiverate naiverate = 1 := by
    unfold idealscale
    rw [Nat.gcd_self, Nat.div_self hr]
  have hdual : dualscale naiverate naiverate = 1 := by
    unfold dualscale
    rw [Nat.gcd_self, Nat.div_self hr]
  have hblep : minblep 1 minbli = cumsum minbli := by
    unfold minblep
    simp [Nat.mod_one]
  have hmix : mixinsize 1 minbli = (minblep 1 minbli).length := by
    unfold mixinsize
    rw [Nat.div_one]
  refine ⟨hideal, by unfold resolvescale; rw [hideal], ?_, hblep, hmix, ?_⟩
  · intro i _
    unfold naivex2outx
    rw [hdual, Nat.mul_one, Nat.div_one]
  · intro j hj
    have hd := demultiplexed_get 1 minbli 0 j (by omega) (by omega)
    simpa using hd

/-- Witness for C10 at `naiverate = 4`, `minbli = [1, 2]`. -/
theorem claim10_equal_rates_witness :
    0 < 4 ∧ (idealscale 4 4 = 1 ∧ minblep 1 [(1 : ℚ), 2] = cumsum [(1 : ℚ), 2]) :=
  ⟨by decide,
    (claim10_equal_rates 4 (by decide) [(1 : ℚ), 2]).1,
    (claim10_equal_rates 4 (by decide) [(1 : ℚ), 2]).2.2.2.1⟩

end MinBleps
